import Mathlib

/-!
Shallow embedding of the clustering core of `assemblyfire`
(`src/assemblyfire/clustering.py`) and verification of its specification.

Conventions:
* machine floats are modelled by `ℚ`; a float `NaN` is modelled by `none`
  in `Option ℚ` where NaN can actually arise;
* numpy/scipy calls that raise (`assert`, `ValueError`, `RuntimeError`)
  are modelled by `Except`;
* outputs of external numeric routines that are not algebraically
  expressible over `ℚ` (scipy's `fcluster` labelling, silhouette /
  Davies-Bouldin scores, the `t.ppf * sqrt` band half-widths) enter the
  embedding as explicit parameters, so theorems quantify over all their
  possible values; everything else is computed.
-/

namespace Assemblyfire

/-- `np.argmax` over a list of scores: index of the first maximal element
(numpy returns the first occurrence of the maximum). -/
def listArgmax (xs : List ℚ) : ℕ :=
  (List.range xs.length).foldl
    (fun best i => if xs.getD best 0 < xs.getD i 0 then i else best) 0

/-- `np.argmin` over a list of scores: index of the first minimal element. -/
def listArgmin (xs : List ℚ) : ℕ :=
  (List.range xs.length).foldl
    (fun best i => if xs.getD i 0 < xs.getD best 0 then i else best) 0

/-- `np.unique(l, return_counts=True)` followed by `(counts > 1).any()`:
some value occurs more than once in `l`. -/
def hasDuplicate (l : List ℤ) : Bool :=
  l.any (fun x => 1 < l.count x)

/-- Python slice `clusters[i:j]`. -/
def pySlice (clusters : List ℤ) (i j : ℕ) : List ℤ :=
  (clusters.drop i).take (j - i)

/-- `_check_seed_separation(clusters, n_assemblies_cum)`
(clustering.py, lines 309-315): for every consecutive pair `(i, j)` of
cumulative per-seed counts, the block `clusters[i:j]` must contain no
repeated label. -/
def _check_seed_separation (clusters : List ℤ) (n_assemblies_cum : List ℕ) : Bool :=
  (n_assemblies_cum.zip n_assemblies_cum.tail).all
    (fun p => !hasDuplicate (pySlice clusters p.1 p.2))

/-- `[0] + np.cumsum(n_assemblies).tolist()` (clustering.py, line 347). -/
def seedCum (n_assemblies : List ℕ) : List ℕ :=
  List.scanl (· + ·) 0 n_assemblies

/-- `np.max(n_assemblies)` — lower end of the searched cluster-count range
(clustering.py, line 352). -/
def minNClusts (n_assemblies : List ℕ) : ℕ :=
  n_assemblies.foldl max 0

/-- `20 if n_assemblies_cum[-1] >= 20 else n_assemblies_cum[-1]` — upper end
of the searched cluster-count range (clustering.py, line 353). -/
def maxNClusts (n_assemblies : List ℕ) : ℕ :=
  let total := (seedCum n_assemblies).getLastD 0
  if 20 ≤ total then 20 else total

/-- Ways `cluster_assemblies` can raise. -/
inductive CAErr
  /-- `RuntimeError("None of the cluster numbers in [%i, %i] fulfill the seed
  separation criteria")` — carries the attempted range. -/
  | noValidN (lo hi : ℕ)
  /-- `assert n_method in ["min", "ss", "DB"]`. -/
  | badMethod
  /-- `np.max` of an empty `n_assemblies` list. -/
  | emptyInput
  deriving DecidableEq, Repr

/-- `cluster_assemblies(assemblies, n_assemblies, ...)` (clustering.py,
lines 332-381), from the point where the linkage matrix is fixed.
`fc n` stands for `fcluster(linkage_matrix, n, criterion="maxclust")`
(deterministic in `n` once the linkage matrix is fixed, covering every
distance metric / linkage method / block-diagonal update), and `ss n`,
`DB n` for `silhouette_score(dists, fc n)` and
`davies_bouldin_score(dists, fc n)`.  Returns the final
`clusters - 1` labelling. -/
def cluster_assemblies (fc : ℕ → List ℤ) (ss DB : ℕ → ℚ)
    (n_assemblies : List ℕ) (n_method : String) : Except CAErr (List ℤ) :=
  if n_assemblies.isEmpty then .error .emptyInput else
  let cum := seedCum n_assemblies
  let lo := minNClusts n_assemblies
  let hi := maxNClusts n_assemblies
  let cand := (List.range (hi + 1 - lo)).map (· + lo)
  let valid := cand.filter (fun n => _check_seed_separation (fc n) cum)
  match valid with
  | [] => .error (.noValidN lo hi)
  | v :: vs =>
    if n_method = "min" then .ok ((fc v).map (· - 1))
    else if n_method = "ss" then
      .ok ((fc ((v :: vs).getD (listArgmax ((v :: vs).map ss)) 0)).map (· - 1))
    else if n_method = "DB" then
      .ok ((fc ((v :: vs).getD (listArgmin ((v :: vs).map DB)) 0)).map (· - 1))
    else .error .badMethod

/-! ### Helper lemmas -/

lemma foldl_select_lt {n : ℕ} (f : ℕ → ℕ → ℕ) (hf : ∀ a b, f a b = a ∨ f a b = b) :
    ∀ (l : List ℕ) (init : ℕ), init < n → (∀ x ∈ l, x < n) → l.foldl f init < n := by
  intro l
  induction l with
  | nil => intro init h0 _; exact h0
  | cons a t ih =>
    intro init h0 hl
    simp only [List.foldl_cons]
    rcases hf init a with h | h <;> rw [h]
    · exact ih init h0 (fun x hx => hl x (List.mem_cons_of_mem a hx))
    · exact ih a (hl a (List.mem_cons_self a t)) (fun x hx => hl x (List.mem_cons_of_mem a hx))

lemma listArgmax_lt (xs : List ℚ) (h : xs ≠ []) : listArgmax xs < xs.length := by
  unfold listArgmax
  apply foldl_select_lt
  · intro a b
    by_cases hc : xs.getD a 0 < xs.getD b 0
    · right; rw [if_pos hc]
    · left; rw [if_neg hc]
  · exact List.length_pos.mpr h
  · intro x hx; exact List.mem_range.1 hx

lemma listArgmin_lt (xs : List ℚ) (h : xs ≠ []) : listArgmin xs < xs.length := by
  unfold listArgmin
  apply foldl_select_lt
  · intro a b
    by_cases hc : xs.getD b 0 < xs.getD a 0
    · right; rw [if_pos hc]
    · left; rw [if_neg hc]
  · exact List.length_pos.mpr h
  · intro x hx; exact List.mem_range.1 hx

lemma nodup_getElem_inj {α : Type} {l : List α} (h : l.Nodup) {i j : ℕ}
    (hi : i < l.length) (hj : j < l.length) (he : l[i] = l[j]) : i = j := by
  have := (h.get_inj_iff (i := ⟨i, hi⟩) (j := ⟨j, hj⟩)).1
  simp only [List.get_eq_getElem] at this
  exact congrArg Fin.val (this he)

lemma hasDuplicate_eq_false_iff {l : List ℤ} : hasDuplicate l = false ↔ l.Nodup := by
  rw [List.nodup_iff_count_le_one]
  simp only [hasDuplicate, List.any_eq_false, decide_eq_true_eq, not_lt]
  constructor
  · intro h a
    by_cases ha : a ∈ l
    · exact h a ha
    · simp [List.count_eq_zero_of_not_mem ha]
  · intro h a _; exact h a

/-- Every `Except.ok` output of `cluster_assemblies` is `fc n - 1` for some
candidate `n` that passed the seed-separation check. -/
lemma cluster_assemblies_ok_shape (fc : ℕ → List ℤ) (ss DB : ℕ → ℚ)
    (n_assemblies : List ℕ) (n_method : String) (out : List ℤ)
    (hok : cluster_assemblies fc ss DB n_assemblies n_method = .ok out) :
    ∃ n, _check_seed_separation (fc n) (seedCum n_assemblies) = true ∧
      out = (fc n).map (· - 1) := by
  simp only [cluster_assemblies] at hok
  split at hok
  · exact absurd hok (by simp)
  · split at hok
    · exact absurd hok (by simp)
    · rename_i v vs heq
      have hmem : ∀ m ∈ v :: vs,
          _check_seed_separation (fc m) (seedCum n_assemblies) = true := by
        intro m hm
        rw [← heq] at hm
        exact (List.mem_filter.1 hm).2
      split at hok
      · exact ⟨v, hmem v (List.mem_cons_self v vs), by simpa using hok.symm⟩
      · split at hok
        · refine ⟨(v :: vs).getD (listArgmax ((v :: vs).map ss)) 0, ?_, by simpa using hok.symm⟩
          apply hmem
          have hlt : listArgmax ((v :: vs).map ss) < (v :: vs).length := by
            have := listArgmax_lt ((v :: vs).map ss) (by simp)
            simpa using this
          rw [List.getD_eq_getElem _ 0 hlt]
          exact List.getElem_mem hlt
        · split at hok
          · refine ⟨(v :: vs).getD (listArgmin ((v :: vs).map DB)) 0, ?_,
              by simpa using hok.symm⟩
            apply hmem
            have hlt : listArgmin ((v :: vs).map DB) < (v :: vs).length := by
              have := listArgmin_lt ((v :: vs).map DB) (by simp)
              simpa using this
            rw [List.getD_eq_getElem _ 0 hlt]
            exact List.getElem_mem hlt
          · exact absurd hok (by simp)

/-- If the seed-separation check passed, each same-seed block of the label
vector is duplicate-free. -/
lemma check_seed_separation_block {clusters : List ℤ} {cum : List ℕ}
    (h : _check_seed_separation clusters cum = true) (s : ℕ) (hs : s + 1 < cum.length) :
    (pySlice clusters (cum.getD s 0) (cum.getD (s + 1) 0)).Nodup := by
  have hs0 : s < cum.length := Nat.lt_of_succ_lt hs
  have hst : s < cum.tail.length := by
    rw [List.length_tail]; omega
  have hzl : s < (cum.zip cum.tail).length := by
    rw [List.length_zip]; omega
  have hpair : (cum[s], cum[s + 1]) ∈ cum.zip cum.tail := by
    have : (cum.zip cum.tail)[s] = (cum[s], cum.tail[s]) := List.getElem_zip ..
    rw [List.getElem_tail] at this
    exact this ▸ List.getElem_mem hzl
  have := (List.all_eq_true.1 h) _ hpair
  simp only [Bool.not_eq_true'] at this
  rw [List.getD_eq_getElem _ 0 hs0, List.getD_eq_getElem _ 0 hs]
  exact hasDuplicate_eq_false_iff.1 this

/-- **C1.** Every normally returned consensus labelling of
`cluster_assemblies` assigns distinct labels to any two assemblies of the
same seed, for every per-seed assembly count, every `fcluster` behaviour
(hence every distance metric / linkage method) and every selection method. -/
theorem cluster_assemblies_seed_separation
    (fc : ℕ → List ℤ) (ss DB : ℕ → ℚ) (n_assemblies : List ℕ) (n_method : String)
    (out : List ℤ) (s p q : ℕ)
    (hok : cluster_assemblies fc ss DB n_assemblies n_method = Except.ok out)
    (hs : s + 1 < (seedCum n_assemblies).length)
    (hp1 : (seedCum n_assemblies).getD s 0 ≤ p) (hpq : p < q)
    (hq2 : q < (seedCum n_assemblies).getD (s + 1) 0)
    (hq : q < out.length) :
    out.get ⟨p, Nat.lt_trans hpq hq⟩ ≠ out.get ⟨q, hq⟩ := by
  obtain ⟨n, hcheck, hout⟩ :=
    cluster_assemblies_ok_shape fc ss DB n_assemblies n_method out hok
  set cum := seedCum n_assemblies with hcum
  set i := cum.getD s 0 with hi
  set j := cum.getD (s + 1) 0 with hj
  -- the slice of `out` between the seed boundaries has no duplicates
  have hnodup : (pySlice (fc n) i j).Nodup := check_seed_separation_block hcheck s hs
  have hnodup' : (pySlice out i j).Nodup := by
    have : pySlice out i j = (pySlice (fc n) i j).map (· - 1) := by
      simp only [hout, pySlice, ← List.map_drop, ← List.map_take]
    rw [this]
    exact hnodup.map (fun a b hab => by omega)
  -- translate positions `p`, `q` into slice positions `p - i`, `q - i`
  have hp : p < out.length := Nat.lt_trans hpq hq
  have hlen : (pySlice out i j).length = min (j - i) (out.length - i) := by
    simp [pySlice]
  have hqi : q - i < (pySlice out i j).length := by rw [hlen]; omega
  have hpi : p - i < (pySlice out i j).length := by rw [hlen]; omega
  have hget : ∀ (m : ℕ) (hm : m < (pySlice out i j).length) (hmi : i + m < out.length),
      (pySlice out i j)[m] = out[i + m] := by
    intro m hm hmi
    simp only [pySlice] at hm ⊢
    rw [List.getElem_take, List.getElem_drop]
  intro hne
  rw [List.get_eq_getElem, List.get_eq_getElem] at hne
  have heq : (pySlice out i j)[p - i] = (pySlice out i j)[q - i] := by
    rw [hget (p - i) hpi (by omega), hget (q - i) hqi (by omega)]
    have hip : i + (p - i) = p := by omega
    have hiq : i + (q - i) = q := by omega
    simp_rw [hip, hiq]
    exact hne
  have := nodup_getElem_inj hnodup' hpi hqi heq
  omega

/-- Concrete instance of `cluster_assemblies_seed_separation`: one seed with
two assemblies, `fcluster` returning `[1, 2]` at the only candidate count. -/
theorem cluster_assemblies_seed_separation_witness :
    ([(0 : ℤ), 1]).get ⟨0, by decide⟩ ≠ ([(0 : ℤ), 1]).get ⟨1, by decide⟩ :=
  cluster_assemblies_seed_separation
    (fun n => if n = 2 then [1, 2] else [1, 1]) (fun _ => 0) (fun _ => 0)
    [2] "min" [0, 1] 0 0 1 (by rfl) (by decide) (by decide) (by decide) (by decide)
    (by decide)

/-- Membership in the candidate list searched by `cluster_assemblies`. -/
lemma mem_candidate_range {lo hi x : ℕ} :
    x ∈ (List.range (hi + 1 - lo)).map (· + lo) ↔ lo ≤ x ∧ x ≤ hi := by
  simp only [List.mem_map, List.mem_range]
  constructor
  · rintro ⟨k, hk, rfl⟩; omega
  · rintro ⟨h1, h2⟩; exact ⟨x - lo, by omega, by omega⟩

/-- **C7.** `cluster_assemblies` searches exactly the closed candidate range
`[max(n_assemblies), min(20, total)]`: it fails with the fatal
`RuntimeError` carrying that very range precisely when no count in the range
passes the seed-separation check (and then returns no partial result). -/
theorem cluster_assemblies_infeasible_range
    (fc : ℕ → List ℤ) (ss DB : ℕ → ℚ) (n_assemblies : List ℕ) (n_method : String)
    (hne : n_assemblies ≠ []) :
    (∀ n, minNClusts n_assemblies ≤ n → n ≤ maxNClusts n_assemblies →
        _check_seed_separation (fc n) (seedCum n_assemblies) = false) ↔
      cluster_assemblies fc ss DB n_assemblies n_method =
        .error (.noValidN (minNClusts n_assemblies) (maxNClusts n_assemblies)) := by
  have hemp : n_assemblies.isEmpty = false := by
    cases n_assemblies
    · exact absurd rfl hne
    · rfl
  constructor
  · intro hfail
    have hv : ((List.range (maxNClusts n_assemblies + 1 - minNClusts n_assemblies)).map
        (· + minNClusts n_assemblies)).filter
        (fun n => _check_seed_separation (fc n) (seedCum n_assemblies)) = [] := by
      rw [List.filter_eq_nil_iff]
      intro a ha
      have := mem_candidate_range.1 ha
      simp [hfail a this.1 this.2]
    simp only [cluster_assemblies, hemp, Bool.false_eq_true, if_false, hv]
  · intro herr
    simp only [cluster_assemblies, hemp, Bool.false_eq_true, if_false] at herr
    split at herr
    · rename_i heq
      intro n h1 h2
      have hn : n ∈ (List.range (maxNClusts n_assemblies + 1 - minNClusts n_assemblies)).map
          (· + minNClusts n_assemblies) := mem_candidate_range.2 ⟨h1, h2⟩
      by_contra hc
      have hc' : _check_seed_separation (fc n) (seedCum n_assemblies) = true := by
        cases h : _check_seed_separation (fc n) (seedCum n_assemblies)
        · exact absurd h hc
        · rfl
      have : n ∈ (([] : List ℕ)) := by
        rw [← heq]
        exact List.mem_filter.2 ⟨hn, hc'⟩
      simp at this
    · split at herr
      · simp at herr
      · split at herr
        · simp at herr
        · split at herr
          · simp at herr
          · simp at herr

/-- Concrete instance of `cluster_assemblies_infeasible_range`: a single seed
with two assemblies that `fcluster` always throws into the same cluster. -/
theorem cluster_assemblies_infeasible_range_witness :
    cluster_assemblies (fun _ => [1, 1]) (fun _ => 0) (fun _ => 0) [2] "min" =
      .error (.noValidN 2 2) :=
  (cluster_assemblies_infeasible_range (fun _ => [1, 1]) (fun _ => 0) (fun _ => 0)
    [2] "min" (by decide)).1
    (fun n h1 h2 => by
      have hn : n = 2 := le_antisymm (by simpa [maxNClusts, seedCum] using h2)
        (by simpa [minNClusts] using h1)
      subst hn
      decide)

/-! ### `merge_clusters` (clustering.py, lines 467-499)

The boolean synapse × cluster matrix is represented column-wise: each raw
cluster is the finite set of row indices (synapses) it contains, so
`np.sum(a & b) > th` becomes `th < (a ∩ b).card`, `np.any` over columns
becomes union and deleting columns becomes list removal. -/

/-- Union of all columns: the set of synapses carried by the matrix
(`np.unique(np.nonzero(clusters)[0])` as a set). -/
def unionAll (cols : List (Finset ℕ)) : Finset ℕ :=
  cols.foldr (· ∪ ·) ∅

/-- `len(np.unique(row_idx))`: number of unique synapses in the matrix. -/
def uniqueSynapseCount (cols : List (Finset ℕ)) : ℕ :=
  (unionAll cols).card

/-- `np.min(counts)` over the per-column nonzero counts of the input
(`np.unique(col_idx, return_counts=True)` only reports columns that own at
least one synapse; `np.min` of an empty array raises, hence `Option`). -/
def minLabelSyns (cols : List (Finset ℕ)) : Option ℕ :=
  ((cols.map Finset.card).filter (fun c => 0 < c)).min?

/-- `np.arange(min_nsyns - 1, 1, -1)`: thresholds
`min_nsyns - 1, ..., 2` (empty when `min_nsyns ≤ 2`). -/
def mergeThresholds (min_nsyns : ℕ) : List ℕ :=
  (List.range (min_nsyns - 2)).map (fun k => min_nsyns - 1 - k)

/-- One sweep of the `while i < clusters.shape[1] - 1` loop at threshold
`th`, with explicit fuel standing for the remaining loop iterations
(`none` models non-termination of the `while`; `mergePassF_total` below
shows fuel `ncols` always suffices).  At each step the scanned column `c`
absorbs every later column sharing more than `th` synapses with it, those
columns are dropped, and the scan moves one column to the right. -/
def mergePassF : ℕ → ℕ → List (Finset ℕ) → Option (List (Finset ℕ))
  | _, _, [] => some []
  | _, _, [c] => some [c]
  | 0, _, _ :: _ :: _ => none
  | fuel + 1, th, c :: d :: rest =>
    let partners := d :: rest
    let matched := partners.filter (fun e => th < (c ∩ e).card)
    if matched.isEmpty then (mergePassF fuel th partners).map (c :: ·)
    else
      (mergePassF fuel th (partners.filter (fun e => (c ∩ e).card ≤ th))).map
        ((matched.foldl (· ∪ ·) c) :: ·)

/-- The outer `for nsyns_th in np.arange(min_nsyns-1, 1, -1)` loop with its
`break` when every synapse belongs to exactly one cluster
(`np.sum(counts) == nsyns`). -/
def mergeLoopF (nsyns : ℕ) : List ℕ → List (Finset ℕ) → Option (List (Finset ℕ))
  | [], cols => some cols
  | th :: ths, cols =>
    match mergePassF cols.length th cols with
    | none => none
    | some cols' =>
      if (cols'.map Finset.card).sum = nsyns then some cols'
      else mergeLoopF nsyns ths cols'

/-- `merge_clusters(clusters)` (clustering.py, lines 467-499).  `none`
models non-termination of the inner `while` loop (shown impossible by
`merge_clusters_terminates`); `Except.error` models the two raising exits
(`np.min` of an empty reduction, and the final `assert`). -/
def merge_clusters (cols : List (Finset ℕ)) : Option (Except String (List (Finset ℕ))) :=
  match minLabelSyns cols with
  | none => some (.error "ValueError: zero-size array to reduction operation minimum")
  | some min_nsyns =>
    let nsyns := uniqueSynapseCount cols
    let nclusts_ub := nsyns / min_nsyns
    match mergeLoopF nsyns (mergeThresholds min_nsyns) cols with
    | none => none
    | some merged =>
      if merged.length ≤ nclusts_ub then some (.ok merged)
      else some (.error "AssertionError: more clusters than the theoretical upper bound")

@[simp] lemma unionAll_nil : unionAll [] = ∅ := rfl

@[simp] lemma unionAll_cons (a : Finset ℕ) (t : List (Finset ℕ)) :
    unionAll (a :: t) = a ∪ unionAll t := rfl

lemma foldl_union (a : Finset ℕ) (l : List (Finset ℕ)) :
    l.foldl (· ∪ ·) a = a ∪ unionAll l := by
  induction l generalizing a with
  | nil => simp
  | cons c t ih =>
    rw [List.foldl_cons, ih (a ∪ c), unionAll_cons, Finset.union_assoc]

/-- Splitting a column list by the match predicate preserves the union. -/
lemma filter_union_split (th : ℕ) (c : Finset ℕ) (l : List (Finset ℕ)) :
    unionAll (l.filter (fun e => th < (c ∩ e).card)) ∪
      unionAll (l.filter (fun e => (c ∩ e).card ≤ th)) = unionAll l := by
  induction l with
  | nil => simp
  | cons a t ih =>
    by_cases h : th < (c ∩ a).card
    · rw [List.filter_cons_of_pos (by simpa using h),
        List.filter_cons_of_neg (by simpa using Nat.not_le.2 h),
        unionAll_cons, unionAll_cons, Finset.union_assoc, ih]
    · rw [List.filter_cons_of_neg (by simpa using h),
        List.filter_cons_of_pos (by simpa using Nat.not_lt.1 h),
        unionAll_cons, unionAll_cons, Finset.union_left_comm, ih]

/-- The fueled `while` sweep always finishes once the fuel covers the column
count: the scanned index strictly increases at every iteration while the
number of columns never increases. -/
lemma mergePassF_total : ∀ (fuel th : ℕ) (cols : List (Finset ℕ)),
    cols.length ≤ fuel + 1 → ∃ out, mergePassF fuel th cols = some out := by
  intro fuel
  induction fuel with
  | zero =>
    intro th cols hlen
    match cols with
    | [] => exact ⟨[], rfl⟩
    | [c] => exact ⟨[c], rfl⟩
    | c :: d :: rest => simp at hlen
  | succ f ih =>
    intro th cols hlen
    match cols with
    | [] => exact ⟨[], rfl⟩
    | [c] => exact ⟨[c], rfl⟩
    | c :: d :: rest =>
      have hrest : rest.length ≤ f := by
        simpa [Nat.succ_le_succ_iff] using hlen
      simp only [mergePassF]
      split
      · obtain ⟨out, hout⟩ := ih th (d :: rest) (by simp; omega)
        exact ⟨c :: out, by rw [hout]; rfl⟩
      · obtain ⟨out, hout⟩ := ih th ((d :: rest).filter (fun e => (c ∩ e).card ≤ th))
          (le_trans (List.length_filter_le _ _) (by simp; omega))
        exact ⟨_, by rw [hout]; rfl⟩

/-- A sweep of the `while` loop only unions and drops columns, so the set of
synapses carried by the matrix is unchanged. -/
lemma mergePassF_union : ∀ (fuel th : ℕ) (cols out : List (Finset ℕ)),
    mergePassF fuel th cols = some out → unionAll out = unionAll cols := by
  intro fuel
  induction fuel with
  | zero =>
    intro th cols out h
    match cols with
    | [] => cases h; rfl
    | [c] => cases h; rfl
    | c :: d :: rest => exact absurd h (by simp [mergePassF])
  | succ f ih =>
    intro th cols out h
    match cols with
    | [] => cases h; rfl
    | [c] => cases h; rfl
    | c :: d :: rest =>
      simp only [mergePassF] at h
      split at h
      · obtain ⟨out', hrec, rfl⟩ := Option.map_eq_some'.1 h
        rw [unionAll_cons, unionAll_cons, ih th _ _ hrec]
      · obtain ⟨out', hrec, rfl⟩ := Option.map_eq_some'.1 h
        rw [unionAll_cons, unionAll_cons, foldl_union, ih th _ _ hrec,
          Finset.union_assoc, filter_union_split]

/-- The threshold loop preserves the union of columns as well. -/
lemma mergeLoopF_union : ∀ (nsyns : ℕ) (ths : List ℕ) (cols out : List (Finset ℕ)),
    mergeLoopF nsyns ths cols = some out → unionAll out = unionAll cols := by
  intro nsyns ths
  induction ths with
  | nil => intro cols out h; cases h; rfl
  | cons th ths ih =>
    intro cols out h
    simp only [mergeLoopF] at h
    split at h
    · exact absurd h (by simp)
    · rename_i cols' hpass
      split at h
      · cases h; exact mergePassF_union _ _ _ _ hpass
      · rw [ih _ _ h, mergePassF_union _ _ _ _ hpass]

lemma card_unionAll_le (cols : List (Finset ℕ)) :
    (unionAll cols).card ≤ (cols.map Finset.card).sum := by
  induction cols with
  | nil => simp
  | cons a t ih =>
    rw [unionAll_cons, List.map_cons, List.sum_cons]
    exact le_trans (Finset.card_union_le a (unionAll t)) (Nat.add_le_add_left ih _)

/-- **C10.** For every boolean raw-cluster matrix with at least one nonzero
entry, `merge_clusters` terminates: the fueled model of its `while`/`for`
loops never runs out of fuel (the scanned column index strictly increases
within a sweep while the column count never increases, and the threshold
range is finite), so the operation always reaches its exit checks and
produces a result. -/
theorem merge_clusters_terminates (cols : List (Finset ℕ))
    (_hnz : ∃ c ∈ cols, c.Nonempty) :
    ∃ res : Except String (List (Finset ℕ)), merge_clusters cols = some res := by
  unfold merge_clusters
  split
  · exact ⟨_, rfl⟩
  · have hloop : ∀ (ths : List ℕ) (nsyns : ℕ) (cs : List (Finset ℕ)),
        ∃ out, mergeLoopF nsyns ths cs = some out := by
      intro ths
      induction ths with
      | nil => intro nsyns cs; exact ⟨cs, rfl⟩
      | cons th ths ih =>
        intro nsyns cs
        obtain ⟨out, hout⟩ := mergePassF_total cs.length th cs (Nat.le_succ _)
        obtain ⟨out', hout'⟩ := ih nsyns out
        refine ⟨if (out.map Finset.card).sum = nsyns then out else out', ?_⟩
        simp only [mergeLoopF, hout]
        split <;> simp_all
    rename_i min_nsyns hmin
    obtain ⟨out, hout⟩ := hloop (mergeThresholds min_nsyns) (uniqueSynapseCount cols) cols
    simp only [hout]
    split <;> exact ⟨_, rfl⟩

/-- Witness for `merge_clusters_terminates`: a 2-synapse, 1-cluster input. -/
theorem merge_clusters_terminates_witness :
    ∃ res : Except String (List (Finset ℕ)),
      merge_clusters [({0, 1} : Finset ℕ)] = some res :=
  merge_clusters_terminates [({0, 1} : Finset ℕ)]
    ⟨{0, 1}, by simp, by decide⟩

/-- **C2, amended.** When `merge_clusters` returns normally, the number of
output clusters is at most `nsyns / min_nsyns` (this bound is the enforced
fatal assertion), and the sum of per-cluster synapse counts is at least —
but not necessarily equal to — the number of unique input synapses. -/
theorem merge_clusters_exit_bounds (cols out : List (Finset ℕ)) (min_nsyns : ℕ)
    (hmin : minLabelSyns cols = some min_nsyns)
    (hok : merge_clusters cols = some (.ok out)) :
    out.length ≤ uniqueSynapseCount cols / min_nsyns ∧
      uniqueSynapseCount cols ≤ (out.map Finset.card).sum := by
  unfold merge_clusters at hok
  rw [hmin] at hok
  simp only at hok
  split at hok
  · exact absurd hok (by simp)
  · rename_i merged hloop
    split at hok
    · rename_i hub
      have hout : merged = out := by
        simpa using hok
      subst hout
      refine ⟨hub, ?_⟩
      have := mergeLoopF_union _ _ _ _ hloop
      calc uniqueSynapseCount cols = (unionAll merged).card := by
            rw [uniqueSynapseCount, this]
        _ ≤ (merged.map Finset.card).sum := card_unionAll_le merged
    · exact absurd hok (by simp)

/-- Witness for `merge_clusters_exit_bounds` on a concrete input. -/
theorem merge_clusters_exit_bounds_witness :
    [({0, 1} : Finset ℕ)].length ≤ uniqueSynapseCount [({0, 1} : Finset ℕ)] / 2 ∧
      uniqueSynapseCount [({0, 1} : Finset ℕ)] ≤
        ([({0, 1} : Finset ℕ)].map Finset.card).sum :=
  merge_clusters_exit_bounds [({0, 1} : Finset ℕ)] [({0, 1} : Finset ℕ)] 2 rfl rfl

/-- **C2, counterexample.** Two raw clusters `{0,…,9}` and `{9,…,13}` sharing
exactly one synapse: `merge_clusters` returns normally (no merge ever fires,
the final assertion `2 ≤ 14 / 5` passes), yet the total clustered-synapse
count is `15` while the input carries `14` unique synapses — the claimed
exact-equality exit invariant is not enforced. -/
theorem merge_clusters_count_counterexample :
    merge_clusters [Finset.range 10, ({9, 10, 11, 12, 13} : Finset ℕ)] =
        some (.ok [Finset.range 10, ({9, 10, 11, 12, 13} : Finset ℕ)]) ∧
      (([Finset.range 10, ({9, 10, 11, 12, 13} : Finset ℕ)].map Finset.card).sum = 15 ∧
        uniqueSynapseCount [Finset.range 10, ({9, 10, 11, 12, 13} : Finset ℕ)] = 14) :=
  ⟨rfl, by decide, by decide⟩

/-! ### Density-based clustering (clustering.py, lines 102-139)

`fit_gammas` runs `curve_fit` on the line `x*m + yshift`, which for this
model is exactly ordinary least squares, computed here in closed form over
`ℚ`.  The half-widths `stds = t_val * sqrt(diag(pcov))` involve `t.ppf` and
a square root, so they enter as a parameter `stds`; `pcovDiag` gives the
exact `diag(pcov)` (`(JᵀJ)⁻¹ * RSS/dof`), which pins `stds` down whenever
the diagonal is zero. -/

/-- `gammas[np.argsort(gammas)[::-1]]`: the γ sequence sorted descending. -/
def sortGammasDesc (gammas : List ℚ) : List ℚ :=
  gammas.insertionSort (· ≥ ·)

/-- `curve_fit(_fn, tmp_idx, gammas)` optimal parameters `popt = (m, yshift)`
for `_fn(x, m, yshift) = x*m + yshift`: the closed-form least-squares line
fit against `x = 0, 1, ..., n-1`. -/
def olsFit (ys : List ℚ) : ℚ × ℚ :=
  let n : ℚ := ys.length
  let xs := (List.range ys.length).map (fun i => (i : ℚ))
  let sx := xs.sum
  let sy := ys.sum
  let sxx := (xs.map (fun x => x * x)).sum
  let sxy := ((xs.zip ys).map (fun p => p.1 * p.2)).sum
  let det := n * sxx - sx * sx
  ((n * sxy - sx * sy) / det, (sy * sxx - sx * sxy) / det)

/-- `np.diagonal(pcov)` as returned by `curve_fit` for the line model:
`(JᵀJ)⁻¹ · RSS/(n-2)` with Jacobian rows `(x_i, 1)`. -/
def pcovDiag (ys : List ℚ) : ℚ × ℚ :=
  let mb := olsFit ys
  let n : ℚ := ys.length
  let xs := (List.range ys.length).map (fun i => (i : ℚ))
  let sx := xs.sum
  let sxx := (xs.map (fun x => x * x)).sum
  let det := n * sxx - sx * sx
  let rss := ((xs.zip ys).map (fun p => (p.2 - (mb.1 * p.1 + mb.2)) ^ 2)).sum
  let s2 := rss / (n - 2)
  (s2 * n / det, s2 * sxx / det)

/-- `_fn(tmp_idx, *(popt+stds))` at index `i`: the upper confidence bound
used by `db_clustering` (the line fitted to the *sorted* γ sequence, shifted
by the band half-widths `stds`). -/
def uCIval (gammas : List ℚ) (stds : ℚ × ℚ) (i : ℕ) : ℚ :=
  let popt := olsFit (sortGammasDesc gammas)
  (i : ℚ) * (popt.1 + stds.1) + (popt.2 + stds.2)

/-- `centroid_idx = np.where(gammas >= uCI)[0]` (clustering.py, line 133):
note the comparison is the *unsorted* γ vector against the band evaluated at
rank positions, and it is non-strict. -/
def dbCentroidIdx (gammas : List ℚ) (stds : ℚ × ℚ) : List ℕ :=
  (List.range gammas.length).filter (fun i => uCIval gammas stds i ≤ gammas.getD i 0)

/-- `db_clustering(matrix, ...)` (clustering.py, lines 117-139) downstream
of the pairwise-distance computation: centroid selection, the `assert
len(centroid_idx) <= 20` guard, and assignment of every bin to its nearest
centroid (`np.argmin(dists[:, centroid_idx], axis=1)`) with centroids
relabelled `0..c-1` in discovery order. -/
def db_clustering (gammas : List ℚ) (stds : ℚ × ℚ) (dists : List (List ℚ)) :
    Except String (List ℕ) :=
  if gammas.length < 2 then .error "curve_fit: Improper input"
  else
    let centroid_idx := dbCentroidIdx gammas stds
    if 20 < centroid_idx.length then .error "AssertionError: len(centroid_idx) > 20"
    else if centroid_idx.isEmpty then .error "ValueError: argmin of an empty sequence"
    else .ok ((List.range gammas.length).map (fun ℓ =>
      if ℓ ∈ centroid_idx then centroid_idx.indexOf ℓ
      else listArgmin (centroid_idx.map (fun c => (dists.getD ℓ []).getD c 0))))

/-- **C3, amended.** A bin is declared a cluster centroid exactly when its
γ is *greater than or equal to* (not strictly greater than) the upper
confidence bound evaluated at the bin's index position, and `db_clustering`
aborts with the fatal assertion whenever more than 20 centroids are found. -/
theorem db_centroid_rule (gammas : List ℚ) (stds : ℚ × ℚ) (dists : List (List ℚ))
    (i : ℕ) (hi : i < gammas.length) (h2 : 2 ≤ gammas.length) :
    (i ∈ dbCentroidIdx gammas stds ↔ uCIval gammas stds i ≤ gammas.getD i 0) ∧
      (20 < (dbCentroidIdx gammas stds).length →
        db_clustering gammas stds dists =
          .error "AssertionError: len(centroid_idx) > 20") := by
  constructor
  · simp [dbCentroidIdx, List.mem_filter, List.mem_range, hi]
  · intro h20
    simp only [db_clustering, if_neg (by omega : ¬gammas.length < 2)]
    rw [if_pos h20]

/-- Concrete instance of `db_centroid_rule`. -/
theorem db_centroid_rule_witness :
    ((0 ∈ dbCentroidIdx [(0 : ℚ), 0] (0, 0) ↔
        uCIval [(0 : ℚ), 0] (0, 0) 0 ≤ [(0 : ℚ), 0].getD 0 0) ∧
      (20 < (dbCentroidIdx [(0 : ℚ), 0] (0, 0)).length →
        db_clustering [(0 : ℚ), 0] (0, 0) [] =
          .error "AssertionError: len(centroid_idx) > 20")) :=
  db_centroid_rule [(0 : ℚ), 0] (0, 0) [] 0 (by decide) (by decide)

/-- **C3, counterexample.** For the perfectly linear γ sequence `[3, 2, 1]`
the least-squares residuals vanish, so `diag(pcov) = (0, 0)` and the
faithful band half-widths are `stds = t_val·√0 = (0, 0)` for every `t_val`.
All three bins are then declared centroids by the code's `>=` comparison,
yet no bin's γ *strictly exceeds* its upper confidence bound — the claim's
"exceeds" reading declares none. -/
theorem db_centroid_strictness_counterexample :
    pcovDiag (sortGammasDesc [(3 : ℚ), 2, 1]) = (0, 0) ∧
      dbCentroidIdx [(3 : ℚ), 2, 1] (0, 0) = [0, 1, 2] ∧
      (List.range 3).filter
        (fun i => uCIval [(3 : ℚ), 2, 1] (0, 0) i < [(3 : ℚ), 2, 1].getD i 0) = [] := by
  refine ⟨?_, ?_, ?_⟩ <;>
    norm_num [pcovDiag, olsFit, sortGammasDesc, uCIval, dbCentroidIdx,
      List.range_succ, List.insertionSort, List.orderedInsert, List.filter]

/-! ### Hierarchical clustering labels (clustering.py, lines 41-67)

`cluster_sim_mat` delegates the flat labelling to scipy's
`fcluster(linkage_matrix, n, criterion="maxclust")` and returns
`clusters - 1`.  `fcluster` cuts the dendrogram: starting from singleton
clusters of the `n` observations it applies a prefix of the linkage merges
(each merge unites two currently active clusters) and labels the surviving
clusters densely `1..k`.  The model below represents the active clusters as
a list of observation sets; a merge `(a, b)` erases positions `a` and `b`
and appends their union (merges with out-of-range or equal positions are
skipped, so the model is total in the merge sequence, covering every cut
scipy can produce). -/

/-- One dendrogram merge applied to the active-cluster list. -/
def mergeStep (cs : List (Finset ℕ)) (ab : ℕ × ℕ) : List (Finset ℕ) :=
  if ab.1 < cs.length ∧ ab.2 < cs.length ∧ ab.1 ≠ ab.2 then
    ((cs.eraseIdx (max ab.1 ab.2)).eraseIdx (min ab.1 ab.2)) ++
      [cs.getD ab.1 ∅ ∪ cs.getD ab.2 ∅]
  else cs

/-- Active clusters after cutting the dendrogram over `n` observations with
the given merge prefix. -/
def cutForest (n : ℕ) (merges : List (ℕ × ℕ)) : List (Finset ℕ) :=
  merges.foldl mergeStep ((List.range n).map ({·}))

/-- `fcluster(..., criterion="maxclust")` labels: each observation gets the
(1-based) index of the active cluster containing it. -/
def fclusterCutLabels (n : ℕ) (merges : List (ℕ × ℕ)) : List ℕ :=
  let comps := cutForest n merges
  (List.range n).map (fun ℓ => comps.findIdx (fun c => ℓ ∈ c) + 1)

/-- The labelling returned by `cluster_sim_mat`: `clusters - 1`
(clustering.py, line 67). -/
def cluster_sim_mat_labels (n : ℕ) (merges : List (ℕ × ℕ)) : List ℕ :=
  (fclusterCutLabels n merges).map (· - 1)

/-- The active clusters always form a partition of the observations into
nonempty, pairwise disjoint sets. -/
def IsPartitionOf (n : ℕ) (cs : List (Finset ℕ)) : Prop :=
  (∀ c ∈ cs, c.Nonempty) ∧ cs.Pairwise Disjoint ∧ unionAll cs = Finset.range n

lemma mem_unionAll {x : ℕ} : ∀ {cs : List (Finset ℕ)},
    x ∈ unionAll cs ↔ ∃ c ∈ cs, x ∈ c := by
  intro cs
  induction cs with
  | nil => simp
  | cons a t ih => simp [Finset.mem_union, ih]

lemma unionAll_append (l₁ l₂ : List (Finset ℕ)) :
    unionAll (l₁ ++ l₂) = unionAll l₁ ∪ unionAll l₂ := by
  induction l₁ with
  | nil => simp
  | cons a t ih => simp [ih, Finset.union_assoc]

lemma unionAll_eraseIdx : ∀ (l : List (Finset ℕ)) (i : ℕ) (hi : i < l.length),
    unionAll (l.eraseIdx i) ∪ l[i] = unionAll l := by
  intro l
  induction l with
  | nil => intro i hi; simp at hi
  | cons a t ih =>
    intro i hi
    match i with
    | 0 => simp [List.eraseIdx, Finset.union_comm]
    | j + 1 =>
      have hj : j < t.length := by simpa using hi
      simp only [List.eraseIdx, unionAll_cons, List.getElem_cons_succ,
        Finset.union_assoc, ih j hj]

/-- Positional characterisation of membership after erasing two positions. -/
lemma mem_eraseIdx_two {α : Type} {cs : List α} {am bm : ℕ} (hab : am < bm) {c : α}
    (hc : c ∈ (cs.eraseIdx bm).eraseIdx am) :
    ∃ r, ∃ hr : r < cs.length, r ≠ am ∧ r ≠ bm ∧ cs[r] = c := by
  obtain ⟨i, hi, hine, hieq⟩ := List.mem_eraseIdx_iff_getElem.1 hc
  have hle : (cs.eraseIdx bm).length ≤ cs.length := by
    rw [List.length_eraseIdx]
    split <;> omega
  rw [List.getElem_eraseIdx] at hieq
  split at hieq
  · exact ⟨i, by omega, hine, by omega, hieq⟩
  · rename_i hge
    have hlen : bm < cs.length := by
      by_contra hcon
      have : (cs.eraseIdx bm).length = cs.length := by
        rw [List.length_eraseIdx]; split <;> omega
      omega
    have : (cs.eraseIdx bm).length = cs.length - 1 := by
      rw [List.length_eraseIdx]; split <;> omega
    exact ⟨i + 1, by omega, by omega, by omega, hieq⟩

lemma pairwise_disjoint_getElem {cs : List (Finset ℕ)} (h : cs.Pairwise Disjoint)
    {r s : ℕ} (hr : r < cs.length) (hs : s < cs.length) (hne : r ≠ s) :
    Disjoint cs[r] cs[s] := by
  rcases Nat.lt_or_ge r s with hlt | hge
  · exact (List.pairwise_iff_getElem.1 h) r s hr hs hlt
  · exact ((List.pairwise_iff_getElem.1 h) s r hs hr (by omega)).symm

/-- A dendrogram merge preserves the partition invariant. -/
lemma mergeStep_partition {n : ℕ} {cs : List (Finset ℕ)} (h : IsPartitionOf n cs)
    (ab : ℕ × ℕ) : IsPartitionOf n (mergeStep cs ab) := by
  obtain ⟨hne, hpd, hun⟩ := h
  unfold mergeStep
  split
  · rename_i hcond
    obtain ⟨ha, hb, hab⟩ := hcond
    set am := min ab.1 ab.2 with ham
    set bm := max ab.1 ab.2 with hbm
    have hambm : am < bm := by omega
    have hbl : bm < cs.length := by omega
    have hal : am < cs.length := by omega
    have hgetu : cs.getD ab.1 ∅ ∪ cs.getD ab.2 ∅ = cs[am] ∪ cs[bm] := by
      rw [List.getD_eq_getElem _ ∅ ha, List.getD_eq_getElem _ ∅ hb]
      rcases le_or_lt ab.1 ab.2 with hle | hlt
      · have h1 : am = ab.1 := by omega
        have h2 : bm = ab.2 := by omega
        simp [h1, h2]
      · have h1 : am = ab.2 := by omega
        have h2 : bm = ab.1 := by omega
        simp [h1, h2, Finset.union_comm]
    have hsub : List.Sublist ((cs.eraseIdx bm).eraseIdx am) cs :=
      (List.eraseIdx_sublist _ am).trans (List.eraseIdx_sublist _ bm)
    refine ⟨?_, ?_, ?_⟩
    · intro c hc
      rcases List.mem_append.1 hc with hc | hc
      · exact hne c (hsub.mem hc)
      · obtain ⟨x, hx⟩ := hne cs[am] (List.getElem_mem hal)
        rw [List.mem_singleton.1 hc, hgetu]
        exact ⟨x, Finset.mem_union_left _ hx⟩
    · rw [List.pairwise_append]
      refine ⟨hpd.sublist hsub, List.pairwise_singleton _ _, ?_⟩
      intro c hc d hd
      rw [List.mem_singleton.1 hd, hgetu]
      obtain ⟨r, hr, hram, hrbm, hreq⟩ := mem_eraseIdx_two hambm hc
      rw [Finset.disjoint_union_right, ← hreq]
      exact ⟨pairwise_disjoint_getElem hpd hr hal hram,
        pairwise_disjoint_getElem hpd hr hbl hrbm⟩
    · rw [unionAll_append, hgetu]
      have hamlt : am < (cs.eraseIdx bm).length := by
        rw [List.length_eraseIdx]; split <;> omega
      have e1 : unionAll ((cs.eraseIdx bm).eraseIdx am) ∪ (cs.eraseIdx bm)[am] =
          unionAll (cs.eraseIdx bm) :=
        unionAll_eraseIdx (cs.eraseIdx bm) am hamlt
      have e2 : (cs.eraseIdx bm)[am] = cs[am] := by
        rw [List.getElem_eraseIdx]
        rw [dif_pos hambm]
      have e3 : unionAll (cs.eraseIdx bm) ∪ cs[bm] = unionAll cs :=
        unionAll_eraseIdx cs bm hbl
      calc unionAll ((cs.eraseIdx bm).eraseIdx am) ∪
            (unionAll [cs[am] ∪ cs[bm]]) =
          (unionAll ((cs.eraseIdx bm).eraseIdx am) ∪ cs[am]) ∪ cs[bm] := by
            simp [unionAll, Finset.union_assoc]
        _ = unionAll (cs.eraseIdx bm) ∪ cs[bm] := by rw [← e2, e1]
        _ = Finset.range n := by rw [e3, hun]
  · exact ⟨hne, hpd, hun⟩

/-- The singleton start state is a partition, hence so is every cut. -/
lemma cutForest_partition (n : ℕ) (merges : List (ℕ × ℕ)) :
    IsPartitionOf n (cutForest n merges) := by
  have hbase : IsPartitionOf n ((List.range n).map ({·})) := by
    refine ⟨?_, ?_, ?_⟩
    · intro c hc
      obtain ⟨x, _, rfl⟩ := List.mem_map.1 hc
      exact ⟨x, Finset.mem_singleton_self x⟩
    · rw [List.pairwise_map]
      exact (List.nodup_range n).imp
        (fun hxy => Finset.disjoint_singleton.2 hxy)
    · have : ∀ l : List ℕ, unionAll (l.map ({·})) = l.toFinset := by
        intro l
        induction l with
        | nil => simp
        | cons a t ih =>
          simp only [List.map_cons, unionAll_cons, ih, List.toFinset_cons,
            Finset.insert_eq]
      rw [this]
      ext x
      simp [List.mem_toFinset, List.mem_range, Finset.mem_range]
  have hfold : ∀ (ms : List (ℕ × ℕ)) (cs : List (Finset ℕ)),
      IsPartitionOf n cs → IsPartitionOf n (ms.foldl mergeStep cs) := by
    intro ms
    induction ms with
    | nil => intro cs h; exact h
    | cons m t ih => intro cs h; exact ih _ (mergeStep_partition h m)
  exact hfold merges _ hbase

lemma findIdx_eq_of_first {α : Type} {l : List α} {p : α → Bool} {j : ℕ}
    (hj : j < l.length) (hp : p l[j] = true)
    (hfirst : ∀ i (hi : i < j), p (l.get ⟨i, lt_trans hi hj⟩) = false) :
    l.findIdx p = j := by
  have hlt : l.findIdx p < l.length :=
    List.findIdx_lt_length_of_exists ⟨l[j], List.getElem_mem hj, hp⟩
  rcases Nat.lt_trichotomy (l.findIdx p) j with h | h | h
  · have h1 := hfirst _ h
    rw [List.get_eq_getElem] at h1
    have h2 : p l[l.findIdx p] = true := List.findIdx_getElem (w := hlt)
    rw [h1] at h2
    exact absurd h2 (by simp)
  · exact h
  · have := List.not_of_lt_findIdx h
    rw [hp] at this
    exact absurd this (by simp)

lemma partition_findIdx_lt {n : ℕ} {cs : List (Finset ℕ)} (h : IsPartitionOf n cs)
    {ℓ : ℕ} (hℓ : ℓ < n) : cs.findIdx (fun c => ℓ ∈ c) < cs.length := by
  apply List.findIdx_lt_length_of_exists
  have hm : ℓ ∈ unionAll cs := by
    rw [h.2.2]; exact Finset.mem_range.2 hℓ
  obtain ⟨c, hc, hx⟩ := mem_unionAll.1 hm
  exact ⟨c, hc, by simpa using hx⟩

lemma partition_label_surj {n : ℕ} {cs : List (Finset ℕ)} (h : IsPartitionOf n cs)
    {j : ℕ} (hj : j < cs.length) :
    ∃ ℓ, ℓ < n ∧ cs.findIdx (fun c => ℓ ∈ c) = j := by
  obtain ⟨ℓ, hℓ⟩ := h.1 cs[j] (List.getElem_mem hj)
  have hℓn : ℓ < n := by
    have hm : ℓ ∈ unionAll cs := mem_unionAll.2 ⟨cs[j], List.getElem_mem hj, hℓ⟩
    rw [h.2.2] at hm
    exact Finset.mem_range.1 hm
  refine ⟨ℓ, hℓn, findIdx_eq_of_first hj (by simpa using hℓ) ?_⟩
  intro i hi
  have hdisj := pairwise_disjoint_getElem h.2.1 (lt_trans hi hj) hj (by omega)
  simp only [decide_eq_false_iff_not]
  intro hmem
  exact (Finset.disjoint_left.1 hdisj hmem) hℓ

/-- Density of the hierarchical-mode labelling, for every dendrogram cut. -/
lemma cluster_sim_mat_labels_dense (n : ℕ) (merges : List (ℕ × ℕ)) :
    (cluster_sim_mat_labels n merges).length = n ∧
      (∀ l ∈ cluster_sim_mat_labels n merges, l < (cutForest n merges).length) ∧
      (∀ j, j < (cutForest n merges).length → j ∈ cluster_sim_mat_labels n merges) := by
  have hpart := cutForest_partition n merges
  refine ⟨by simp [cluster_sim_mat_labels, fclusterCutLabels], ?_, ?_⟩
  · intro l hl
    simp only [cluster_sim_mat_labels, fclusterCutLabels, List.mem_map,
      List.mem_range] at hl
    obtain ⟨x, ⟨ℓ, hℓ, rfl⟩, rfl⟩ := hl
    simpa using partition_findIdx_lt hpart hℓ
  · intro j hj
    obtain ⟨ℓ, hℓn, hfi⟩ := partition_label_surj hpart hj
    simp only [cluster_sim_mat_labels, fclusterCutLabels, List.mem_map,
      List.mem_range]
    exact ⟨j + 1, ⟨ℓ, hℓn, by rw [hfi]⟩, by omega⟩

lemma dbCentroidIdx_nodup (gammas : List ℚ) (stds : ℚ × ℚ) :
    (dbCentroidIdx gammas stds).Nodup :=
  (List.nodup_range _).filter _

lemma dbCentroidIdx_lt (gammas : List ℚ) (stds : ℚ × ℚ) {c : ℕ}
    (hc : c ∈ dbCentroidIdx gammas stds) : c < gammas.length :=
  List.mem_range.1 (List.mem_of_mem_filter hc)

/-- **C6.** In both time-bin clustering modes every bin receives exactly one
label and the labels used are exactly the dense range `0..k-1`: the
hierarchical labelling (`fcluster` cut, minus one) is onto `0..k-1` for the
`k` surviving clusters of *any* dendrogram cut, and the density-peak
labelling is onto `0..c-1` for the `c` discovered centroids, with centroid
number `j` (in discovery order) labelled `j`. -/
theorem clustering_labels_dense :
    (∀ (n : ℕ) (merges : List (ℕ × ℕ)),
      (cluster_sim_mat_labels n merges).length = n ∧
        (∀ l ∈ cluster_sim_mat_labels n merges, l < (cutForest n merges).length) ∧
        (∀ j, j < (cutForest n merges).length →
          j ∈ cluster_sim_mat_labels n merges)) ∧
      (∀ (gammas : List ℚ) (stds : ℚ × ℚ) (dists : List (List ℚ)) (out : List ℕ),
        db_clustering gammas stds dists = .ok out →
        out.length = gammas.length ∧
          (∀ l ∈ out, l < (dbCentroidIdx gammas stds).length) ∧
          (∀ j, j < (dbCentroidIdx gammas stds).length → j ∈ out) ∧
          (∀ j (hj : j < (dbCentroidIdx gammas stds).length),
            out.getD (dbCentroidIdx gammas stds)[j] 0 = j)) := by
  refine ⟨cluster_sim_mat_labels_dense, ?_⟩
  intro gammas stds dists out hok
  simp only [db_clustering] at hok
  split at hok
  · exact absurd hok (by simp)
  · split at hok
    · exact absurd hok (by simp)
    · split at hok
      · exact absurd hok (by simp)
      · rename_i hlen2 h20 hempty
        have hout : out = (List.range gammas.length).map (fun ℓ =>
            if ℓ ∈ dbCentroidIdx gammas stds then (dbCentroidIdx gammas stds).indexOf ℓ
            else listArgmin ((dbCentroidIdx gammas stds).map
              (fun c => (dists.getD ℓ []).getD c 0))) := by
          simpa using hok.symm
        have hne : dbCentroidIdx gammas stds ≠ [] := by
          simpa using hempty
        refine ⟨by simp [hout], ?_, ?_, ?_⟩
        · intro l hl
          rw [hout] at hl
          obtain ⟨ℓ, _, rfl⟩ := List.mem_map.1 hl
          split
          · rename_i hmem
            exact List.indexOf_lt_length.2 hmem
          · have := listArgmin_lt ((dbCentroidIdx gammas stds).map
              (fun c => (dists.getD ℓ []).getD c 0)) (by simpa using hne)
            simpa using this
        · intro j hj
          set cid := dbCentroidIdx gammas stds with hcid
          have hcl : cid[j] < gammas.length :=
            dbCentroidIdx_lt gammas stds (List.getElem_mem hj)
          have hcm : cid[j] ∈ cid := List.getElem_mem hj
          have hidx : cid.indexOf cid[j] = j :=
            List.indexOf_getElem (dbCentroidIdx_nodup gammas stds) j hj
          rw [hout]
          refine List.mem_map.2 ⟨cid[j], List.mem_range.2 hcl, ?_⟩
          rw [if_pos hcm, hidx]
        · intro j hj
          set cid := dbCentroidIdx gammas stds with hcid
          have hcl : cid[j] < gammas.length :=
            dbCentroidIdx_lt gammas stds (List.getElem_mem hj)
          have hcm : cid[j] ∈ cid := List.getElem_mem hj
          have hidx : cid.indexOf cid[j] = j :=
            List.indexOf_getElem (dbCentroidIdx_nodup gammas stds) j hj
          have hol : cid[j] < out.length := by
            rw [hout]; simpa using hcl
          rw [List.getD_eq_getElem _ 0 hol]
          have : out[cid[j]] = if cid[j] ∈ cid then cid.indexOf cid[j]
              else listArgmin (cid.map (fun c => (dists.getD cid[j] []).getD c 0)) := by
            simp only [hout]
            rw [List.getElem_map, List.getElem_range]
          rw [this, if_pos hcm, hidx]

/-- Concrete instance of `clustering_labels_dense`: a 2-bin dendrogram cut
and a 2-bin density-peak run. -/
theorem clustering_labels_dense_witness :
    0 ∈ cluster_sim_mat_labels 2 [(0, 1)] ∧ 1 ∈ ([0, 1] : List ℕ) :=
  ⟨(clustering_labels_dense.1 2 [(0, 1)]).2.2 0 (by decide),
    (clustering_labels_dense.2 [0, 0] (0, 0) [[0, 0], [0, 0]] [0, 1]
      (by norm_num [db_clustering, dbCentroidIdx, uCIval, olsFit, sortGammasDesc,
        List.insertionSort, List.orderedInsert, List.range_succ, List.filter])).2.2.1 1
      (by norm_num [dbCentroidIdx, uCIval, olsFit, sortGammasDesc,
        List.insertionSort, List.orderedInsert, List.range_succ, List.filter])⟩

/-! ### `within_cluster_correlations` (clustering.py, lines 196-209)

The correlation matrix handed over by `pairwise_correlation_X` is NaN-free
(C9), so NaN can only enter through `np.fill_diagonal(corrs, np.nan)`;
entries are modelled as `Option ℚ` with `none` for NaN, `np.nanmean` as
`nanmean` and the Python comparison `NaN > x = False` as `nanGTb`. -/

/-- `m[a][b]` with numpy-style total access. -/
def matGetQ (m : List (List ℚ)) (a b : ℕ) : ℚ :=
  (m.getD a []).getD b 0

/-- `np.fill_diagonal(corrs, np.nan)` on the square matrix `corrs`. -/
def fillDiagNaN (corrs : List (List ℚ)) : List (List (Option ℚ)) :=
  (List.range corrs.length).map (fun a =>
    (List.range corrs.length).map (fun b =>
      if a = b then none else some (matGetQ corrs a b)))

/-- `np.nanmean`: the mean of the non-NaN entries, NaN (`none`) when there
are none. -/
def nanmean (xs : List (Option ℚ)) : Option ℚ :=
  let vals := xs.filterMap id
  if vals.isEmpty then none else some (vals.sum / vals.length)

/-- Python `a > b` under float semantics: `False` whenever either side is
NaN. -/
def nanGTb (a b : Option ℚ) : Bool :=
  match a, b with
  | some x, some y => y < x
  | _, _ => false

/-- `core_cell_idx.shape[1]`. -/
def nClusters (core : List (List Bool)) : ℕ :=
  (core.headD []).length

/-- `np.where(core_cell_idx[:, i] == 1)[0]`. -/
def coreCells (core : List (List Bool)) (i : ℕ) : List ℕ :=
  (List.range core.length).filter (fun g => (core.getD g []).getD i false)

/-- `corrs[np.ix_(idx, idx)]` flattened, over the NaN-diagonal matrix. -/
def subNaNVals (m : List (List (Option ℚ))) (idx : List ℕ) : List (Option ℚ) :=
  (idx.map (fun a => idx.map (fun b => (m.getD a []).getD b none))).flatten

/-- `within_cluster_correlations(spike_matrix, core_cell_idx)`
(clustering.py, lines 196-209), taking the already computed pairwise
correlation matrix: clusters whose core-cell submatrix `nanmean` strictly
exceeds the global `nanmean` are kept (these are the clusters promoted to
assemblies by `detect_assemblies`, line 295/299; all others produce no
assembly). -/
def within_cluster_correlations (corrs : List (List ℚ)) (core : List (List Bool)) :
    List ℕ :=
  let corrsN := fillDiagNaN corrs
  let mean_corr := nanmean corrsN.flatten
  (List.range (nClusters core)).filter (fun i =>
    nanGTb (nanmean (subNaNVals corrsN (coreCells core i))) mean_corr)

/-- The claim's notion: correlation values over ordered pairs of distinct
indices drawn from `idx` ("self-pairs excluded"). -/
def pairVals (corrs : List (List ℚ)) (idx : List ℕ) : List ℚ :=
  (idx.map (fun a =>
    (idx.filter (fun b => a ≠ b)).map (fun b => matGetQ corrs a b))).flatten

/-- The claim's "mean" of a value list. -/
def meanOfVals (l : List ℚ) : ℚ :=
  l.sum / l.length

lemma fillDiagNaN_getD {corrs : List (List ℚ)} {a b : ℕ}
    (ha : a < corrs.length) (hb : b < corrs.length) :
    ((fillDiagNaN corrs).getD a []).getD b none =
      if a = b then none else some (matGetQ corrs a b) := by
  have h1 : (fillDiagNaN corrs).getD a [] =
      (List.range corrs.length).map (fun b =>
        if a = b then none else some (matGetQ corrs a b)) := by
    have hlen : a < (fillDiagNaN corrs).length := by
      simpa [fillDiagNaN] using ha
    rw [List.getD_eq_getElem _ [] hlen]
    simp [fillDiagNaN]
  rw [h1]
  have hlen2 : b < ((List.range corrs.length).map (fun b =>
      if a = b then none else some (matGetQ corrs a b))).length := by simpa using hb
  rw [List.getD_eq_getElem _ none hlen2]
  simp

lemma row_filterMap (corrs : List (List ℚ)) (a : ℕ) (ha : a < corrs.length) :
    ∀ (idx : List ℕ), (∀ x ∈ idx, x < corrs.length) →
      (idx.map (fun b => ((fillDiagNaN corrs).getD a []).getD b none)).filterMap id =
        (idx.filter (fun b => a ≠ b)).map (fun b => matGetQ corrs a b) := by
  intro idx
  induction idx with
  | nil => intro _; rfl
  | cons b t ih =>
    intro hmem
    have hb : b < corrs.length := hmem b (List.mem_cons_self b t)
    have ht : ∀ x ∈ t, x < corrs.length :=
      fun x hx => hmem x (List.mem_cons_of_mem b hx)
    by_cases hab : a = b
    · simp only [List.map_cons, List.filterMap_cons, fillDiagNaN_getD ha hb,
        if_pos hab, List.filter_cons]
      rw [ih ht]
      simp [hab]
    · simp only [List.map_cons, List.filterMap_cons, fillDiagNaN_getD ha hb,
        if_neg hab, List.filter_cons]
      rw [ih ht]
      simp [hab]

/-- Over in-range indices, the non-NaN entries of the NaN-diagonal submatrix
are exactly the distinct-pair correlation values. -/
lemma subNaNVals_filterMap (corrs : List (List ℚ)) (idx : List ℕ)
    (hmem : ∀ x ∈ idx, x < corrs.length) :
    (subNaNVals (fillDiagNaN corrs) idx).filterMap id = pairVals corrs idx := by
  rw [subNaNVals, pairVals, List.filterMap_flatten]
  congr 1
  rw [List.map_map]
  apply List.map_congr_left
  intro a ha
  exact row_filterMap corrs a (hmem a ha) idx hmem

/-- The full NaN-diagonal matrix flattened is the `idx = range n` case. -/
lemma fillDiagNaN_flatten (corrs : List (List ℚ)) :
    (fillDiagNaN corrs).flatten.filterMap id =
      pairVals corrs (List.range corrs.length) := by
  have h : (fillDiagNaN corrs).flatten =
      subNaNVals (fillDiagNaN corrs) (List.range corrs.length) := by
    rw [subNaNVals]
    congr 1
    rw [fillDiagNaN]
    apply List.map_congr_left
    intro a ha
    apply List.map_congr_left
    intro b hb
    exact (fillDiagNaN_getD (List.mem_range.1 ha) (List.mem_range.1 hb)).symm
  rw [h]
  exact subNaNVals_filterMap corrs _ (fun x hx => List.mem_range.1 hx)

lemma pairVals_ne_nil {corrs : List (List ℚ)} {idx : List ℕ} (hnd : idx.Nodup) :
    pairVals corrs idx ≠ [] ↔ 2 ≤ idx.length := by
  constructor
  · intro hne
    match idx with
    | [] => exact absurd rfl hne
    | [a] => exact absurd (by simp [pairVals]) hne
    | a :: b :: t => simp
  · intro h2
    match idx with
    | a :: b :: t =>
      have hab : a ≠ b := by
        intro hcon
        subst hcon
        exact (List.nodup_cons.1 hnd).1 (List.mem_cons_self a t)
      apply List.ne_nil_of_mem (a := matGetQ corrs a b)
      rw [pairVals]
      apply List.mem_flatten.2
      refine ⟨_, List.mem_map.2 ⟨a, List.mem_cons_self _ _, rfl⟩, ?_⟩
      exact List.mem_map.2 ⟨b, List.mem_filter.2 ⟨by simp, by simpa using hab⟩, rfl⟩

/-- **C4.** A time-bin cluster is promoted (its index is returned by
`within_cluster_correlations`, hence an `Assembly` is emitted by
`detect_assemblies`) iff its core-cell set has at least two members whose
mean pairwise correlation, self-pairs excluded, strictly exceeds the global
mean pairwise correlation of the matrix, self-pairs excluded; all other
clusters produce no assembly. -/
theorem within_cluster_promotion_iff (corrs : List (List ℚ)) (core : List (List Bool))
    (i : ℕ) (hn : 2 ≤ corrs.length) (hcore : core.length = corrs.length)
    (hi : i < nClusters core) :
    i ∈ within_cluster_correlations corrs core ↔
      2 ≤ (coreCells core i).length ∧
        meanOfVals (pairVals corrs (List.range corrs.length)) <
          meanOfVals (pairVals corrs (coreCells core i)) := by
  have hmemc : ∀ x ∈ coreCells core i, x < corrs.length := by
    intro x hx
    have := List.mem_range.1 (List.mem_of_mem_filter hx)
    omega
  have hndc : (coreCells core i).Nodup := (List.nodup_range _).filter _
  have hglobal : pairVals corrs (List.range corrs.length) ≠ [] :=
    (pairVals_ne_nil (List.nodup_range _)).2 (by simpa using hn)
  constructor
  · intro hmem
    have hpred := (List.mem_filter.1 hmem).2
    simp only [nanmean, fillDiagNaN_flatten, subNaNVals_filterMap corrs _ hmemc] at hpred
    by_cases hw : pairVals corrs (coreCells core i) = []
    · rw [if_pos (by simpa using hw)] at hpred
      exact absurd hpred (by simp [nanGTb])
    · rw [if_neg (by simpa using hw), if_neg (by simpa using hglobal)] at hpred
      refine ⟨(pairVals_ne_nil hndc).1 hw, ?_⟩
      simpa [nanGTb, meanOfVals] using hpred
  · rintro ⟨h2, hgt⟩
    apply List.mem_filter.2
    refine ⟨List.mem_range.2 hi, ?_⟩
    have hw : pairVals corrs (coreCells core i) ≠ [] := (pairVals_ne_nil hndc).2 h2
    simp only [nanmean, fillDiagNaN_flatten, subNaNVals_filterMap corrs _ hmemc]
    rw [if_neg (by simpa using hw), if_neg (by simpa using hglobal)]
    simpa [nanGTb, meanOfVals] using hgt

/-- Concrete instance of `within_cluster_promotion_iff`: neurons `{0, 1}`
correlate at `9` with each other while the global mean is `3`, so the single
cluster is promoted. -/
theorem within_cluster_promotion_iff_witness :
    0 ∈ within_cluster_correlations [[1, 9, 0], [9, 1, 0], [0, 0, 1]]
        [[true], [true], [false]] ↔
      2 ≤ (coreCells [[true], [true], [false]] 0).length ∧
        meanOfVals (pairVals [[1, 9, 0], [9, 1, 0], [0, 0, 1]] (List.range 3)) <
          meanOfVals (pairVals [[1, 9, 0], [9, 1, 0], [0, 0, 1]]
            (coreCells [[true], [true], [false]] 0)) :=
  within_cluster_promotion_iff [[1, 9, 0], [9, 1, 0], [0, 0, 1]]
    [[true], [true], [false]] 0 (by decide) (by decide) (by decide)

/-! ### Core-cell significance thresholds (clustering.py, lines 182-193 and
288-293)

The `N` surrogate correlation matrices (random column permutations followed
by the correlation computation) are genuinely random and irrational-valued,
so the surrogate stack enters as a parameter; the percentile and the
thresholding are computed. -/

/-- `np.percentile(xs, q)` with the default linear interpolation. -/
def npPercentile (q : ℚ) (xs : List ℚ) : ℚ :=
  let s := xs.insertionSort (· ≤ ·)
  let n := s.length
  let pos := q * ((n : ℚ) - 1) / 100
  let i : ℕ := Int.toNat ⌊pos⌋
  if i + 1 < n then s.getD i 0 + (pos - (⌊pos⌋ : ℚ)) * (s.getD (i + 1) 0 - s.getD i 0)
  else s.getD (n - 1) 0

/-- `sign_corr_ths(...)`: stack the `N` surrogate correlation matrices
(`np.dstack`) and take the `th_pct`-th percentile along the stack axis,
per `(neuron, cluster)` cell (clustering.py, lines 190-193). -/
def sign_corr_ths (surrogates : List (List (List ℚ))) (th_pct : ℚ)
    (ngids ncl : ℕ) : List (List ℚ) :=
  (List.range ngids).map (fun g => (List.range ncl).map (fun c =>
    npPercentile th_pct (surrogates.map (fun M => matGetQ M g c))))

/-- `np.getD` access for integer matrices. -/
def matGetN (m : List (List ℕ)) (a b : ℕ) : ℕ :=
  (m.getD a []).getD b 0

/-- `core_cell_idx = np.zeros_like(corrs, dtype=int);
core_cell_idx[np.where(corrs > corr_ths)] = 1` (clustering.py, lines
292-293). -/
def core_cell_idx_mat (corrs ths : List (List ℚ)) (ngids ncl : ℕ) :
    List (List ℕ) :=
  (List.range ngids).map (fun g => (List.range ncl).map (fun c =>
    if matGetQ ths g c < matGetQ corrs g c then 1 else 0))

/-- **C5.** A neuron `g` is marked as a core cell of cluster `c` iff its
true correlation strictly exceeds the per-`(g, c)` significance threshold,
which is the `th_pct`-th percentile of its correlations across the `N`
surrogate matrices. -/
theorem core_cell_rule (corrs : List (List ℚ)) (surrogates : List (List (List ℚ)))
    (th_pct : ℚ) (ngids ncl g c : ℕ) (hg : g < ngids) (hc : c < ncl) :
    matGetN (core_cell_idx_mat corrs
        (sign_corr_ths surrogates th_pct ngids ncl) ngids ncl) g c = 1 ↔
      npPercentile th_pct (surrogates.map (fun M => matGetQ M g c)) <
        matGetQ corrs g c := by
  have hth : matGetQ (sign_corr_ths surrogates th_pct ngids ncl) g c =
      npPercentile th_pct (surrogates.map (fun M => matGetQ M g c)) := by
    rw [matGetQ, sign_corr_ths]
    rw [List.getD_eq_getElem _ [] (by simpa using hg)]
    rw [List.getElem_map, List.getElem_range]
    rw [List.getD_eq_getElem _ 0 (by simpa using hc)]
    rw [List.getElem_map, List.getElem_range]
  have hcc : matGetN (core_cell_idx_mat corrs
      (sign_corr_ths surrogates th_pct ngids ncl) ngids ncl) g c =
      if matGetQ (sign_corr_ths surrogates th_pct ngids ncl) g c <
          matGetQ corrs g c then 1 else 0 := by
    rw [matGetN, core_cell_idx_mat]
    rw [List.getD_eq_getElem _ [] (by simpa using hg)]
    rw [List.getElem_map, List.getElem_range]
    rw [List.getD_eq_getElem _ 0 (by simpa using hc)]
    rw [List.getElem_map, List.getElem_range]
  rw [hcc, hth]
  split
  · rename_i h; simpa using h
  · rename_i h; simpa using h

/-- Concrete instance of `core_cell_rule`: two surrogate matrices with
values `0` and `2` give median threshold `1`, equal to the true
correlation, so the neuron is not a core cell. -/
theorem core_cell_rule_witness :
    matGetN (core_cell_idx_mat [[1]]
        (sign_corr_ths [[[0]], [[2]]] 50 1 1) 1 1) 0 0 = 1 ↔
      npPercentile 50 ([[[(0 : ℚ)]], [[2]]].map (fun M => matGetQ M 0 0)) <
        matGetQ [[1]] 0 0 :=
  core_cell_rule [[1]] [[[0]], [[2]]] 50 1 1 0 0 (by decide) (by decide)

/-! ### `calc_rho_delta` (clustering.py, lines 78-99)

`none`-free model over `ℚ`: the two float paths that raise in numpy are
made explicit `Except.error` exits.  When `n2keep = int(ratio_to_keep * ncols)` is
zero, every `np.mean` over the empty kept-neighbour slice is NaN; the NaN
densities then make every `rhos > rho` selection empty and `np.min` of an
empty selection raises `ValueError` in the δ loop, so that whole cascade is
modelled as one error exit.  When every kept-neighbour mean is zero,
`np.min(mean_min_dists[mean_min_dists != 0])` itself is an empty reduction
and raises. -/

/-- `np.mean(np.sort(dists, axis=1)[:, 0:n2keep], axis=1)`. -/
def meanMinDists (dists : List (List ℚ)) (n2keep : ℕ) : List ℚ :=
  dists.map (fun row =>
    let kept := (row.insertionSort (· ≤ ·)).take n2keep
    kept.sum / kept.length)

/-- `np.min` of a nonempty list (`0` on the empty list, never reached on the
modelled paths). -/
def listMinD (l : List ℚ) : ℚ :=
  match l with
  | [] => 0
  | x :: t => t.foldl min x

/-- `np.max` of a nonempty list (`0` on the empty list). -/
def listMaxD (l : List ℚ) : ℚ :=
  match l with
  | [] => 0
  | x :: t => t.foldl max x

/-- `calc_rho_delta(dists, ratio_to_keep)` (clustering.py, lines 78-99). -/
def calc_rho_delta (dists : List (List ℚ)) (ratio_to_keep : ℚ) :
    Except String (List ℚ × List ℚ) :=
  let ncols := (dists.headD []).length
  let n2keep := Int.toNat ⌊ratio_to_keep * (ncols : ℚ)⌋
  if n2keep = 0 ∨ dists.isEmpty then
    .error "ValueError: zero-size array to reduction operation minimum"
  else
    let mean_min_dists := meanMinDists dists n2keep
    let nonzero := mean_min_dists.filter (fun v => v ≠ 0)
    if nonzero.isEmpty then
      .error "ValueError: zero-size array to reduction operation minimum"
    else
      let mmd := mean_min_dists.map (fun v => if v = 0 then listMinD nonzero else v)
      let rhos := mmd.map (fun v => 1 / v)
      let max_rho := listMaxD rhos
      let deltas := (List.range rhos.length).map (fun i =>
        if rhos.getD i 0 ≠ max_rho then
          listMinD (((List.range rhos.length).filter
            (fun j => rhos.getD i 0 < rhos.getD j 0)).map (fun j => matGetQ dists i j))
        else listMaxD (dists.getD i []))
      .ok (rhos, deltas)

lemma foldl_min_mem : ∀ (t : List ℚ) (x : ℚ), t.foldl min x ∈ x :: t := by
  intro t
  induction t with
  | nil => intro x; exact List.mem_singleton_self x
  | cons y t ih =>
    intro x
    rw [List.foldl_cons]
    rcases min_choice x y with hm | hm <;> rw [hm]
    · rcases List.mem_cons.1 (ih x) with hh | hh
      · rw [hh]; exact List.mem_cons_self x _
      · exact List.mem_cons_of_mem x (List.mem_cons_of_mem y hh)
    · rcases List.mem_cons.1 (ih y) with hh | hh
      · rw [hh]; exact List.mem_cons_of_mem x (List.mem_cons_self y t)
      · exact List.mem_cons_of_mem x (List.mem_cons_of_mem y hh)

lemma listMinD_mem {l : List ℚ} (h : l ≠ []) : listMinD l ∈ l := by
  match l with
  | [] => exact absurd rfl h
  | x :: t => exact foldl_min_mem t x

lemma sum_nonneg_of_mem {l : List ℚ} (h : ∀ x ∈ l, 0 ≤ x) : 0 ≤ l.sum := by
  induction l with
  | nil => simp
  | cons a t ih =>
    rw [List.sum_cons]
    have := h a (List.mem_cons_self a t)
    have := ih (fun x hx => h x (List.mem_cons_of_mem a hx))
    linarith

/-- **C8, amended.** Provided the kept-neighbour count is at least one and
some bin has a nonzero kept-neighbour mean distance, `calc_rho_delta`
raises nothing, zero means are floored to the minimum nonzero mean before
inversion, and every density ρ is finite and positive.  (Without those
provisos the `np.min` over the empty nonzero selection — or the NaN cascade
of an empty kept slice — raises `ValueError`, refuting the unconditional
claim; see the counterexample.) -/
theorem calc_rho_delta_safe (dists : List (List ℚ)) (ratio_to_keep : ℚ)
    (hkeep : 1 ≤ Int.toNat ⌊ratio_to_keep * (((dists.headD []).length : ℕ) : ℚ)⌋)
    (hne : dists ≠ [])
    (hnonneg : ∀ row ∈ dists, ∀ x ∈ row, 0 ≤ x)
    (hnzmean : ∃ v ∈ meanMinDists dists (Int.toNat ⌊ratio_to_keep * (((dists.headD []).length : ℕ) : ℚ)⌋),
      v ≠ 0) :
    ∃ rhos deltas, calc_rho_delta dists ratio_to_keep = .ok (rhos, deltas) ∧
      ∀ r ∈ rhos, 0 < r := by
  have hmeannn : ∀ v ∈ meanMinDists dists
      (Int.toNat ⌊ratio_to_keep * (((dists.headD []).length : ℕ) : ℚ)⌋), 0 ≤ v := by
    intro v hv
    obtain ⟨row, hrow, rfl⟩ := List.mem_map.1 hv
    apply div_nonneg
    · apply sum_nonneg_of_mem
      intro x hx
      have hx' : x ∈ row.insertionSort (· ≤ ·) := List.mem_of_mem_take hx
      exact hnonneg row hrow x ((List.perm_insertionSort _ row).mem_iff.1 hx')
    · positivity
  unfold calc_rho_delta
  rw [if_neg (not_or.2 ⟨by omega, by simpa using hne⟩)]
  set n2keep := Int.toNat ⌊ratio_to_keep * (((dists.headD []).length : ℕ) : ℚ)⌋ with hn2
  set nonzero := (meanMinDists dists n2keep).filter (fun v => v ≠ 0) with hnz
  have hnzne : nonzero ≠ [] := by
    obtain ⟨v, hv, hvne⟩ := hnzmean
    exact List.ne_nil_of_mem (List.mem_filter.2 ⟨hv, by simpa using hvne⟩)
  rw [if_neg (by simp only [List.isEmpty_iff]; exact hnzne)]
  refine ⟨_, _, rfl, ?_⟩
  intro r hr
  obtain ⟨v, hv, rfl⟩ := List.mem_map.1 hr
  obtain ⟨w, hw, rfl⟩ := List.mem_map.1 hv
  have hminpos : 0 < listMinD nonzero := by
    have hmm := listMinD_mem hnzne
    have hne2 : listMinD nonzero ≠ 0 := by
      have := (List.mem_filter.1 hmm).2
      simpa using this
    have hge := hmeannn _ (List.mem_of_mem_filter hmm)
    exact lt_of_le_of_ne hge (Ne.symm hne2)
  by_cases hw0 : w = 0
  · rw [if_pos hw0]
    exact one_div_pos.2 hminpos
  · rw [if_neg hw0]
    have := hmeannn w hw
    have hpos : 0 < w := lt_of_le_of_ne this (Ne.symm hw0)
    exact one_div_pos.2 hpos

/-- Witness for `calc_rho_delta_safe`: a 1×1 distance matrix with entry 1
and `ratio_to_keep = 1`. -/
theorem calc_rho_delta_safe_witness :
    ∃ rhos deltas, calc_rho_delta [[1]] 1 = .ok (rhos, deltas) ∧
      ∀ r ∈ rhos, 0 < r :=
  calc_rho_delta_safe [[1]] 1 (by norm_num) (by simp)
    (by norm_num) ⟨1, by norm_num [meanMinDists, List.insertionSort], by norm_num⟩

/-- **C8, counterexample.** The all-zero 2×2 distance matrix (two identical
points; the caller's diagonal fill is the matrix maximum, 0) with
`ratio_to_keep = 1/2` makes every kept-neighbour mean zero, so
`np.min(mean_min_dists[mean_min_dists != 0])` reduces over an empty array
and `calc_rho_delta` raises instead of returning finite densities. -/
theorem calc_rho_delta_counterexample :
    calc_rho_delta [[0, 0], [0, 0]] (1 / 2) =
      .error "ValueError: zero-size array to reduction operation minimum" := by
  norm_num [calc_rho_delta, meanMinDists, List.insertionSort, List.orderedInsert,
    List.filter]

/-! ### `pairwise_correlation_X` / `pairwise_correlation_XY`
(clustering.py, lines 143-154)

`pairwise_distances(x, metric="correlation", force_all_finite=False)` and
`cdist(x, y, metric="correlation")` emit NaN (with a runtime warning, not
an exception) for constant rows; the resulting correlation-*distance*
matrix enters as an `Option ℚ` matrix with `none` for those NaN cells. -/

/-- `corrs = 1 - dist`: float subtraction propagates NaN. -/
def oneMinusDist (e : Option ℚ) : Option ℚ :=
  e.map (fun v => 1 - v)

/-- `corrs[np.isnan(corrs)] = 0.`. -/
def replaceNaN (e : Option ℚ) : ℚ :=
  e.getD 0

/-- `pairwise_correlation_X(x)` downstream of the distance computation. -/
def pairwise_correlation_X (D : List (List (Option ℚ))) : List (List ℚ) :=
  D.map (fun row => row.map (fun e => replaceNaN (oneMinusDist e)))

/-- `pairwise_correlation_XY(x, y)` downstream of the distance computation
(same post-processing applied to the rectangular `cdist` matrix). -/
def pairwise_correlation_XY (D : List (List (Option ℚ))) : List (List ℚ) :=
  D.map (fun row => row.map (fun e => replaceNaN (oneMinusDist e)))

/-- **C9.** Both pairwise-correlation operations return a total (NaN-free)
matrix of the same shape: every NaN cell of the correlation-distance
computation comes out as `0`, and every finite cell as `1 - d`; nothing is
raised (the functions are total). -/
theorem pairwise_correlation_no_nan (D : List (List (Option ℚ))) (a b : ℕ)
    (ha : a < D.length) (hb : b < (D.getD a []).length) :
    (pairwise_correlation_X D).length = D.length ∧
      ((pairwise_correlation_X D).getD a []).length = (D.getD a []).length ∧
      ((D.getD a []).getD b none = none →
        ((pairwise_correlation_X D).getD a []).getD b 0 = 0) ∧
      (∀ d : ℚ, (D.getD a []).getD b none = some d →
        ((pairwise_correlation_X D).getD a []).getD b 0 = 1 - d) ∧
      pairwise_correlation_XY D = pairwise_correlation_X D := by
  have hrow : (pairwise_correlation_X D).getD a [] =
      (D.getD a []).map (fun e => replaceNaN (oneMinusDist e)) := by
    rw [pairwise_correlation_X, List.getD_eq_getElem _ [] (by simpa using ha),
      List.getElem_map, List.getD_eq_getElem _ [] ha]
  have hhb : b < ((D.getD a []).map (fun e => replaceNaN (oneMinusDist e))).length := by
    simpa using hb
  refine ⟨by simp [pairwise_correlation_X], by rw [hrow]; simp, ?_, ?_, rfl⟩
  · intro hnan
    rw [hrow, List.getD_eq_getElem _ 0 hhb, List.getElem_map,
      ← List.getD_eq_getElem _ none hb, hnan]
    rfl
  · intro d hval
    rw [hrow, List.getD_eq_getElem _ 0 hhb, List.getElem_map,
      ← List.getD_eq_getElem _ none hb, hval]
    rfl

/-- Concrete instance of `pairwise_correlation_no_nan`: a NaN cell (constant
row) and a finite cell. -/
theorem pairwise_correlation_no_nan_witness :
    (pairwise_correlation_X [[none, some (1 / 2)]]).length = 1 ∧
      ((pairwise_correlation_X [[none, some (1 / 2)]]).getD 0 []).length = 2 ∧
      (([[none, some ((1 : ℚ) / 2)]].getD 0 []).getD 0 none = none →
        ((pairwise_correlation_X [[none, some (1 / 2)]]).getD 0 []).getD 0 0 = 0) ∧
      (∀ d : ℚ, ([[none, some ((1 : ℚ) / 2)]].getD 0 []).getD 0 none = some d →
        ((pairwise_correlation_X [[none, some (1 / 2)]]).getD 0 []).getD 0 0 = 1 - d) ∧
      pairwise_correlation_XY [[none, some (1 / 2)]] =
        pairwise_correlation_X [[none, some (1 / 2)]] :=
  pairwise_correlation_no_nan [[none, some (1 / 2)]] 0 0 (by decide) (by decide)

end Assemblyfire
